import Mathlib

/-!
Verification of the micro-adapton incremental-computation graph.

The source is a single Rust file (src/lib.rs) implementing a demand-driven
memoizing computation graph: a `Graph` owns a slab of `AThunk` nodes, each
holding a computation (`Thunk`), an argument-keyed memo table (`result`),
a `clean` flag and bidirectional dependency edges (`sub_computations` /
`super_computations`).  Evaluation (`compute`) serves memo hits on clean
nodes, otherwise tears down the node's dependency edges, marks it clean,
runs its thunk under a `Handle` that can declare edges and recursively
evaluate other nodes, stores the result in the memo, and finally re-enters
itself.  `update_aref` replaces a node's thunk by a constant and propagates
dirtiness along `super_computations`; `dirty` short-circuits on nodes that
are already dirty.

Modelling choices (each noted again at the relevant definition):
* `f64` values are modelled as rational numbers.  An executable fraction
  representation `Qv` (numerator/denominator, reduced with a fuel-based gcd)
  is used instead of Mathlib's `Rat` so that concrete runs reduce inside the
  kernel.  All values appearing in the repository's test are dyadic and all
  arithmetic on them is exact in `f64`, so the rational model is faithful
  there.  Division by zero yields `0` in the model (`f64` would give `inf`);
  no covered claim divides by zero.
* Rust closures `Box<dyn Fn(&mut Handle) -> f64>` are modelled by the deep
  syntax `TExpr`, which covers exactly the closure shapes the repository
  builds: constants, argument projections, `add_edge` sequencing, recursive
  `compute(..).unwrap()` calls and the arithmetic used by the test.
* `RefCell` dynamic borrows are modelled by a `locked` list of node ids whose
  cells are currently mutably borrowed; an attempted second borrow (or a
  failed `unwrap`, or an out-of-range slice index) is an aborted run,
  modelled as `none`.  Recursion in Rust is unbounded, so the interpreter
  takes explicit fuel; `none` also results when fuel runs out.
* `Slab` never frees entries here (nothing is removed), so node ids are the
  indices `0, 1, 2, …` of a growing list and `vacant_entry().key()` is the
  current length.
* `HashSet` iteration order is unspecified in Rust; edge sets are modelled
  as duplicate-free lists in insertion order, a fixed determinization.
  `HashMap` memo tables are association lists whose insert replaces the
  entry for an existing key.
-/

/-- Fuel-based Euclidean algorithm (the fuel makes it structurally recursive,
hence kernel-computable; `m + 1` steps always suffice since the first
argument strictly decreases). Used only to keep `Qv` values reduced. -/
def gcdAux : Nat → Nat → Nat → Nat
  | 0, _, n => n
  | f+1, m, n => if m = 0 then n else gcdAux f (n % m) m

/-- Greatest common divisor via `gcdAux`. -/
def ngcd (m n : Nat) : Nat := gcdAux (m + 1) m n

/-- Exact numeric values: the model of Rust `f64` as a fraction
numerator / denominator.  Values produced by the arithmetic below are kept
reduced with a positive denominator. -/
structure Qv where
  num : Int
  den : Nat
  deriving DecidableEq, Repr

instance (n : Nat) : OfNat Qv n := ⟨⟨(n : Int), 1⟩⟩

/-- Reduce a fraction with a nonnegative denominator.  A zero denominator
(only reachable through division by zero, which no covered claim performs;
`f64` would give an infinity) is mapped to `0`. -/
def Qv.normalize (n : Int) (d : Nat) : Qv :=
  if d = 0 then ⟨0, 1⟩
  else
    let g := ngcd n.natAbs d
    ⟨n / (g : Int), d / g⟩

/-- Reduce a fraction whose denominator may be negative. -/
def Qv.normalizeI (n d : Int) : Qv :=
  if d < 0 then Qv.normalize (-n) (-d).toNat else Qv.normalize n d.toNat

/-- Rational addition: model of `f64` `+` in the source's thunks. -/
def Qv.add (a b : Qv) : Qv :=
  Qv.normalize (a.num * (b.den : Int) + b.num * (a.den : Int)) (a.den * b.den)

/-- Rational subtraction: model of `f64` `-` in the source's thunks. -/
def Qv.sub (a b : Qv) : Qv :=
  Qv.normalize (a.num * (b.den : Int) - b.num * (a.den : Int)) (a.den * b.den)

/-- Rational division: model of `f64` `/` in the source's thunks. -/
def Qv.div (a b : Qv) : Qv :=
  Qv.normalizeI (a.num * (b.den : Int)) ((a.den : Int) * b.num)

/-- Truncation toward zero of a rational value (the integer part used by the
Rust float-to-integer cast). -/
def Qv.trunc (q : Qv) : Int :=
  if q.num < 0 then -((q.num.natAbs / q.den : Nat) : Int)
  else ((q.num.natAbs / q.den : Nat) : Int)

/-- Model of the Rust cast `f as u64` (src/lib.rs line 109) on a finite
value: Rust semantics round toward zero and saturate to the range
`[0, u64::MAX]`, so every negative value maps to `0` and every value above
`u64::MAX` maps to `u64::MAX = 2^64 - 1`. -/
def Qv.asU64 (q : Qv) : Nat := min q.trunc.toNat (2 ^ 64 - 1)

/-- An `f64` as fed to the cache-key cast: either NaN or a finite value
modelled as a rational.  (The interpreter itself only produces finite
values; this type exists to state the cast's NaN behavior.) -/
inductive F64val where
  | nan : F64val
  | num : Qv → F64val
  deriving DecidableEq

/-- Rust `f as u64` on a possibly-NaN double: NaN casts to `0`. -/
def F64val.asU64 : F64val → Nat
  | .nan => 0
  | .num q => q.asU64

/-- The cache key of an argument vector: `args.iter().map(|&f| f as u64)`
(src/lib.rs line 109). -/
def mkKey (args : List Qv) : List Nat := args.map Qv.asU64

/-- Lookup in a memo table (model of `HashMap::get`). -/
def lookupMemo (key : List Nat) : List (List Nat × Qv) → Option Qv
  | [] => none
  | (k, v) :: rest => if k = key then some v else lookupMemo key rest

/-- Insert into a memo table, replacing any entry with the same key
(model of `HashMap::insert`). -/
def insertMemo (key : List Nat) (v : Qv) (m : List (List Nat × Qv)) :
    List (List Nat × Qv) :=
  (key, v) :: m.filter fun p => decide (p.1 ≠ key)

/-- Insert into an id set (model of `HashSet::insert`): duplicate-free. -/
def insertSet (x : Nat) (s : List Nat) : List Nat :=
  if x ∈ s then s else s ++ [x]

/-- Remove from an id set (model of `HashSet::remove`). -/
def removeId (x : Nat) (s : List Nat) : List Nat :=
  s.filter fun y => decide (y ≠ x)

/-- Deep embedding of the Rust thunks `Box<dyn Fn(&mut Handle) -> f64>`:
the closure shapes the repository constructs.  `lit` is a constant closure
(as built by `new_aref` / `update_aref`); `arg i` reads `h.args[i]` (an
out-of-range index aborts); `seqEdge i e` is `h.add_edge(i); e`;
`computeU i as` is `h.compute(i, as).unwrap()`; `add`, `sub`, `div` are the
`f64` operators used in the test's thunks, evaluated left to right. -/
inductive TExpr where
  | lit : Qv → TExpr
  | arg : Nat → TExpr
  | seqEdge : Nat → TExpr → TExpr
  | computeU : Nat → List Qv → TExpr
  | add : TExpr → TExpr → TExpr
  | sub : TExpr → TExpr → TExpr
  | div : TExpr → TExpr → TExpr
  deriving DecidableEq

/-- A node record (Rust `struct AThunk`, src/lib.rs lines 88-95).  The Rust
`id` field is the node's own slab key, redundant with its index in the
model's node list, so it is not stored. -/
structure AThunk where
  thunk : TExpr
  result : List (List Nat × Qv)
  clean : Bool
  sub_computations : List Nat
  super_computations : List Nat
  deriving DecidableEq

/-- `AThunk::new` (src/lib.rs lines 98-107): empty memo, no edges, dirty. -/
def AThunk.new (thunk : TExpr) : AThunk :=
  { thunk := thunk
    result := []
    clean := false
    sub_computations := []
    super_computations := [] }

/-- The graph store (Rust `struct Graph`): a slab of nodes, modelled as a
list indexed by node id (nothing is ever removed, so slab keys are
`0, 1, 2, …` in creation order). -/
structure Graph where
  athunks : List AThunk
  deriving DecidableEq

/-- `Graph::new` (src/lib.rs lines 16-20). -/
def Graph.new : Graph := ⟨[]⟩

/-- Apply a function to the node stored at index `i` (a `borrow_mut` whose
target is known to exist; out of range leaves the graph unchanged, a case
the operations below never reach silently). -/
def modifyNode (g : Graph) (i : Nat) (f : AThunk → AThunk) : Graph :=
  match g.athunks[i]? with
  | none => g
  | some a => ⟨g.athunks.set i (f a)⟩

/-- The number of clean nodes: the measure that bounds `dirty`'s recursion. -/
def Graph.cleanCount (g : Graph) : Nat := g.athunks.countP fun a => a.clean

/-- `Handle::add_edge` (src/lib.rs lines 68-77): insert the evaluating
node's id into `sub_id`'s `super_computations`, and `sub_id` into the
evaluating node's `sub_computations`.  `get(..).unwrap()` aborts when
`sub_id` is not live; `borrow_mut` aborts when `sub_id`'s cell is already
borrowed (`sub_id ∈ locked`). -/
def Handle.add_edge (locked : List Nat) (selfId : Nat) (g : Graph)
    (sub_id : Nat) : Option Graph :=
  match g.athunks[sub_id]? with
  | none => none
  | some _ =>
    if sub_id ∈ locked then none
    else some (modifyNode
      (modifyNode g sub_id fun a =>
        { a with super_computations := insertSet selfId a.super_computations })
      selfId fun a =>
        { a with sub_computations := insertSet sub_id a.sub_computations })

/-- The edge-teardown loop at the top of `AThunk::compute` (src/lib.rs
lines 117-128): for each current sub-computation `s`, remove the node's id
from `s`'s `super_computations` (aborting if `s` is dead or borrowed). -/
def removeFromSupers (locked : List Nat) (selfId : Nat) :
    Graph → List Nat → Option Graph
  | g, [] => some g
  | g, s :: rest =>
    match g.athunks[s]? with
    | none => none
    | some _ =>
      if s ∈ locked then none
      else removeFromSupers locked selfId
        (modifyNode g s fun a =>
          { a with super_computations := removeId selfId a.super_computations })
        rest

/-- Interpreter for a thunk body run under a `Handle` (src/lib.rs lines
60-83 for the handle operations), parameterized by the graph-level compute
used for the handle's recursive `compute` calls.  State (the graph) is
threaded left to right; `none` is an aborted run (failed `unwrap`,
out-of-range `args` index, or `RefCell` double borrow inside). -/
def evalTWith (gcomp : Graph → Nat → List Qv → Option (Option Qv × Graph))
    (locked : List Nat) (selfId : Nat) (args : List Qv) :
    Graph → TExpr → Option (Qv × Graph)
  | g, .lit q => some (q, g)
  | g, .arg i =>
    match args[i]? with
    | none => none
    | some v => some (v, g)
  | g, .seqEdge sub_id e =>
    match Handle.add_edge locked selfId g sub_id with
    | none => none
    | some g1 => evalTWith gcomp locked selfId args g1 e
  | g, .computeU i as =>
    match gcomp g i as with
    | none => none
    | some (none, _) => none
    | some (some v, g1) => some (v, g1)
  | g, .add e1 e2 =>
    match evalTWith gcomp locked selfId args g e1 with
    | none => none
    | some (v1, g1) =>
      match evalTWith gcomp locked selfId args g1 e2 with
      | none => none
      | some (v2, g2) => some (Qv.add v1 v2, g2)
  | g, .sub e1 e2 =>
    match evalTWith gcomp locked selfId args g e1 with
    | none => none
    | some (v1, g1) =>
      match evalTWith gcomp locked selfId args g1 e2 with
      | none => none
      | some (v2, g2) => some (Qv.sub v1 v2, g2)
  | g, .div e1 e2 =>
    match evalTWith gcomp locked selfId args g e1 with
    | none => none
    | some (v1, g1) =>
      match evalTWith gcomp locked selfId args g1 e2 with
      | none => none
      | some (v2, g2) => some (Qv.div v1 v2, g2)

/-- `AThunk::compute` (src/lib.rs lines 108-142), with explicit fuel (Rust
recursion is unbounded) and the ambient set of mutably borrowed cells.
Steps: build the cache key; if the node is clean and the memo holds the
key, return the memoized value; otherwise tear down the node's sub-edges,
clear them, mark the node clean, run the thunk under a handle, store the
result in the memo under the key, and re-enter itself.  The nested
`h.compute` closure is `Graph::compute` at one less fuel (see
`Graph.compute` below, whose body this lambda spells out). -/
def AThunk.compute : Nat → List Nat → Graph → Nat → List Qv →
    Option (Qv × Graph)
  | 0, _, _, _, _ => none
  | f+1, locked, g, id, args =>
    match g.athunks[id]? with
    | none => none
    | some a =>
      let key := mkKey args
      match if a.clean then lookupMemo key a.result else none with
      | some r => some (r, g)
      | none =>
        match removeFromSupers locked id g a.sub_computations with
        | none => none
        | some g1 =>
          let g2 := modifyNode g1 id fun n =>
            { n with sub_computations := [], clean := true }
          match evalTWith
              (fun g' i as =>
                match g'.athunks[i]? with
                | none => some (none, g')
                | some _ =>
                  if i ∈ locked then none
                  else (AThunk.compute f (i :: locked) g' i as).map
                    fun p => (some p.1, p.2))
              locked id args g2 a.thunk with
          | none => none
          | some (v, g3) =>
            AThunk.compute f locked
              (modifyNode g3 id fun n =>
                { n with result := insertMemo key v n.result })
              id args

/-- `Graph::compute` (src/lib.rs lines 35-37): `None` (here
`some (none, g)`) when `id` is not live; otherwise `borrow_mut` (aborting
when the cell is already borrowed) and delegate to `AThunk::compute` with
the cell locked.  Outer `none` is an aborted run. -/
def Graph.compute (fuel : Nat) (locked : List Nat) (g : Graph) (id : Nat)
    (args : List Qv) : Option (Option Qv × Graph) :=
  match g.athunks[id]? with
  | none => some (none, g)
  | some _ =>
    if id ∈ locked then none
    else (AThunk.compute fuel (id :: locked) g id args).map
      fun p => (some p.1, p.2)

/-- `Graph::new_athunk` (src/lib.rs lines 22-28): append a fresh dirty node
and return its id (the slab's next key, i.e. the current length). -/
def Graph.new_athunk (g : Graph) (thunk : TExpr) : Graph × Nat :=
  (⟨g.athunks ++ [AThunk.new thunk]⟩, g.athunks.length)

/-- `Graph::new_aref` (src/lib.rs lines 30-33): a constant-returning node. -/
def Graph.new_aref (g : Graph) (val : Qv) : Graph × Nat :=
  g.new_athunk (.lit val)

/-- Sequencing of an id list through a dirtying step: the
`for &s in athunk.super_computations.iter()` loop of `Graph::dirty`. -/
def foldDirty (dg : Graph → Nat → Option Graph) :
    Graph → List Nat → Option Graph
  | g, [] => some g
  | g, s :: rest =>
    match dg g s with
    | none => none
    | some g1 => foldDirty dg g1 rest

/-- `Graph::dirty` (src/lib.rs lines 48-57), with explicit fuel and borrow
set: `get(id).unwrap()` aborts on a dead id, `borrow_mut` aborts when the
cell is already borrowed (the borrow is held for the whole loop, so the
recursion carries `id :: locked`); a clean node is flipped dirty, its memo
is cleared, and each of its super-computations is dirtied in turn; an
already-dirty node is left untouched and the recursion stops. -/
def Graph.dirtyGo : Nat → List Nat → Graph → Nat → Option Graph
  | 0, _, _, _ => none
  | f+1, locked, g, id =>
    match g.athunks[id]? with
    | none => none
    | some a =>
      if id ∈ locked then none
      else if a.clean then
        foldDirty (fun g1 s => Graph.dirtyGo f (id :: locked) g1 s)
          (modifyNode g id fun n => { n with clean := false, result := [] })
          a.super_computations
      else some g

/-- `Graph::dirty` at its sufficient fuel: every recursive descent flips a
node from clean to dirty, so `cleanCount + 1` steps of nesting always
suffice (proved as the fuel-insensitivity part of the dirtying claim). -/
def Graph.dirty (g : Graph) (id : Nat) : Option Graph :=
  Graph.dirtyGo (g.cleanCount + 1) [] g id

/-- `Graph::update_aref` (src/lib.rs lines 39-46): `unwrap` aborts when
`id` is not live; otherwise replace the node's thunk by the constant
closure returning `val`, then dirty `id`. -/
def Graph.update_aref (g : Graph) (id : Nat) (val : Qv) : Option Graph :=
  match g.athunks[id]? with
  | none => none
  | some _ =>
    Graph.dirty (modifyNode g id fun a => { a with thunk := .lit val }) id

/-- The variant of `AThunk::compute` the specification describes as
equivalent: identical to `AThunk.compute` except that after storing the
freshly computed value in the memo it returns that value directly instead
of re-entering itself.  (Modelled from the spec's words for the refinement
claim; nested handle computations still go through the real
`AThunk.compute`.) -/
def AThunk.computeDirect : Nat → List Nat → Graph → Nat → List Qv →
    Option (Qv × Graph)
  | 0, _, _, _, _ => none
  | f+1, locked, g, id, args =>
    match g.athunks[id]? with
    | none => none
    | some a =>
      let key := mkKey args
      match if a.clean then lookupMemo key a.result else none with
      | some r => some (r, g)
      | none =>
        match removeFromSupers locked id g a.sub_computations with
        | none => none
        | some g1 =>
          let g2 := modifyNode g1 id fun n =>
            { n with sub_computations := [], clean := true }
          match evalTWith
              (fun g' i as =>
                match g'.athunks[i]? with
                | none => some (none, g')
                | some _ =>
                  if i ∈ locked then none
                  else (AThunk.compute f (i :: locked) g' i as).map
                    fun p => (some p.1, p.2))
              locked id args g2 a.thunk with
          | none => none
          | some (v, g3) =>
            some (v, modifyNode g3 id fun n =>
              { n with result := insertMemo key v n.result })

/-- Graph states reachable through the public operations, starting from a
fresh `Graph` (`compute` and `update_aref` are entered with no cell
borrowed, hence `locked = []`). -/
inductive Reachable : Graph → Prop where
  | init : Reachable Graph.new
  | new_athunk : ∀ {g : Graph} (t : TExpr), Reachable g →
      Reachable (g.new_athunk t).1
  | compute : ∀ {g : Graph} (fuel id : Nat) (args : List Qv)
      {p : Option Qv × Graph}, Reachable g →
      Graph.compute fuel [] g id args = some p → Reachable p.2
  | update_aref : ∀ {g g' : Graph} (id : Nat) (v : Qv), Reachable g →
      Graph.update_aref g id v = some g' → Reachable g'

/-- All edge-set members name live nodes. -/
def WfEdges (g : Graph) : Prop :=
  ∀ (i : Nat) (a : AThunk), g.athunks[i]? = some a →
    (∀ j ∈ a.sub_computations, j < g.athunks.length) ∧
    (∀ j ∈ a.super_computations, j < g.athunks.length)

/-- Edge symmetry: `j` is among `i`'s sub-computations exactly when `i` is
among `j`'s super-computations. -/
def EdgeSym (g : Graph) : Prop :=
  ∀ (i j : Nat) (a b : AThunk), g.athunks[i]? = some a → g.athunks[j]? = some b →
    (j ∈ a.sub_computations ↔ i ∈ b.super_computations)

/-- The edge invariant maintained by every operation. -/
def GraphInv (g : Graph) : Prop := WfEdges g ∧ EdgeSym g

/-- What one evaluation step preserves: the node count, the edge invariant,
and the cleanness of every node that was already clean (nothing inside an
evaluation ever dirties a node). -/
def EvalPres (g g' : Graph) : Prop :=
  g'.athunks.length = g.athunks.length ∧
  (GraphInv g → GraphInv g') ∧
  ∀ (j : Nat) (a : AThunk), g.athunks[j]? = some a →
    ∃ a' : AThunk, g'.athunks[j]? = some a' ∧ (a.clean = true → a'.clean = true)

/-- What a dirtying pass preserves: the node count and, pointwise, every
field except that a node's `clean`/`result` pair may flip to
`(false, [])`. -/
def DirtyPres (g g' : Graph) : Prop :=
  g'.athunks.length = g.athunks.length ∧
  ∀ (j : Nat) (a : AThunk), g.athunks[j]? = some a →
    ∃ a' : AThunk, g'.athunks[j]? = some a' ∧
      a'.thunk = a.thunk ∧
      a'.sub_computations = a.sub_computations ∧
      a'.super_computations = a.super_computations ∧
      ((a'.clean = a.clean ∧ a'.result = a.result) ∨
        (a'.clean = false ∧ a'.result = []))

/-- The thunk of the test node `a1 = r2 - r1` (src/lib.rs lines 157-161). -/
def thunkA1 : TExpr :=
  .seqEdge 1 (.seqEdge 0 (.sub (.computeU 1 []) (.computeU 0 [])))

/-- The thunk of the test node `a2 = r3 + r1` (src/lib.rs lines 163-167). -/
def thunkA2 : TExpr :=
  .seqEdge 2 (.seqEdge 0 (.add (.computeU 2 []) (.computeU 0 [])))

/-- The thunk of the test node `a3 = (r2 + a1 + a2) / args[0]`
(src/lib.rs lines 169-177). -/
def thunkA3 : TExpr :=
  .seqEdge 1 (.seqEdge 3 (.seqEdge 4
    (.div (.add (.add (.computeU 1 []) (.computeU 3 [])) (.computeU 4 []))
      (.arg 0))))

/-- The test's initial graph: leaves `r1 = 8`, `r2 = 10`, `r3 = 2` at ids
0, 1, 2 and derived nodes `a1`, `a2`, `a3` at ids 3, 4, 5. -/
def testGraph : Graph :=
  ((((((Graph.new.new_aref 8).1.new_aref 10).1.new_aref 2).1.new_athunk
    thunkA1).1.new_athunk thunkA2).1.new_athunk thunkA3).1

/-- The value of a public `compute` call at ample fuel (fuel 40 is far above
the call depth any covered scenario reaches). -/
def runVal (g : Graph) (id : Nat) (args : List Qv) : Option (Option Qv) :=
  (Graph.compute 40 [] g id args).map fun p => p.1

/-- The graph after a public `compute` call at ample fuel. -/
def runG (g : Graph) (id : Nat) (args : List Qv) : Graph :=
  match Graph.compute 40 [] g id args with
  | some p => p.2
  | none => g

/-- Test scenario stage: after `compute(a2, [])`. -/
def tg1 : Graph := runG testGraph 4 []

/-- Test scenario stage: after `compute(a3, [1.0])`. -/
def tg2 : Graph := runG tg1 5 [1]

/-- Test scenario stage: after `compute(a3, [2.0])`. -/
def tg3 : Graph := runG tg2 5 [2]

/-- Test scenario stage: after repeating `compute(a3, [1.0])`. -/
def tg4 : Graph := runG tg3 5 [1]

/-- Test scenario stage: after repeating `compute(a3, [2.0])`. -/
def tg5 : Graph := runG tg4 5 [2]

/-- Test scenario stage: after `update_aref(r2, 6.0)`. -/
def tg6 : Graph :=
  match Graph.update_aref tg5 1 6 with
  | some g => g
  | none => tg5

/-- Test scenario stage: after `compute(a2, [])` post-update. -/
def tg7 : Graph := runG tg6 4 []

/-- Test scenario stage: after `compute(a3, [1.0])` post-update. -/
def tg8 : Graph := runG tg7 5 [1]

/-- A single node whose computation returns `args[0]` (used by the
cache-key claims). -/
def argGraph : Graph := (Graph.new.new_athunk (.arg 0)).1

/-- A single node whose computation recursively computes itself: the
dependency-cycle configuration whose evaluation aborts on the `RefCell`
double borrow. -/
def cycGraph : Graph := (Graph.new.new_athunk (.computeU 0 [])).1

/-! Basic lemmas about the store and the small containers. -/

theorem modifyNode_length (g : Graph) (i : Nat) (f : AThunk → AThunk) :
    (modifyNode g i f).athunks.length = g.athunks.length := by
  unfold modifyNode
  cases hg : g.athunks[i]? <;> simp

theorem modifyNode_self {g : Graph} {i : Nat} {a : AThunk} (f : AThunk → AThunk)
    (h : g.athunks[i]? = some a) :
    (modifyNode g i f).athunks[i]? = some (f a) := by
  obtain ⟨hlt, -⟩ := List.getElem?_eq_some_iff.mp h
  unfold modifyNode
  rw [h]
  simpa using List.getElem?_set_self hlt

theorem modifyNode_ne {g : Graph} {i j : Nat} (f : AThunk → AThunk) (h : j ≠ i) :
    (modifyNode g i f).athunks[j]? = g.athunks[j]? := by
  unfold modifyNode
  cases hg : g.athunks[i]? with
  | none => rfl
  | some a => simpa using List.getElem?_set_ne (fun e => h e.symm)

theorem modifyNode_dead {g : Graph} {i : Nat} (f : AThunk → AThunk)
    (h : g.athunks[i]? = none) : modifyNode g i f = g := by
  unfold modifyNode
  rw [h]

theorem live_of_length {l l' : List AThunk} (hlen : l'.length = l.length)
    {j : Nat} {a : AThunk} (h : l[j]? = some a) :
    ∃ b : AThunk, l'[j]? = some b := by
  obtain ⟨hlt, -⟩ := List.getElem?_eq_some_iff.mp h
  cases hlj : l'[j]? with
  | none =>
    have hle := List.getElem?_eq_none_iff.mp hlj
    omega
  | some b => exact ⟨b, rfl⟩

theorem mem_insertSet {x y : Nat} {s : List Nat} :
    y ∈ insertSet x s ↔ y = x ∨ y ∈ s := by
  unfold insertSet
  by_cases hx : x ∈ s
  · rw [if_pos hx]
    exact ⟨Or.inr, fun h => h.elim (fun e => e ▸ hx) id⟩
  · rw [if_neg hx]
    simpa using Or.comm

theorem mem_removeId {x y : Nat} {s : List Nat} :
    y ∈ removeId x s ↔ y ∈ s ∧ y ≠ x := by
  unfold removeId
  simp [List.mem_filter]

theorem removeId_idem (x : Nat) (s : List Nat) :
    removeId x (removeId x s) = removeId x s := by
  unfold removeId
  rw [List.filter_filter]
  simp

theorem lookupMemo_insertMemo (key : List Nat) (v : Qv) (m : List (List Nat × Qv)) :
    lookupMemo key (insertMemo key v m) = some v := by
  unfold insertMemo
  simp [lookupMemo]

theorem evalPres_refl (g : Graph) : EvalPres g g :=
  ⟨rfl, id, fun _ a h => ⟨a, h, id⟩⟩

theorem evalPres_trans {g1 g2 g3 : Graph} (h12 : EvalPres g1 g2)
    (h23 : EvalPres g2 g3) : EvalPres g1 g3 := by
  obtain ⟨l12, i12, c12⟩ := h12
  obtain ⟨l23, i23, c23⟩ := h23
  refine ⟨l23.trans l12, fun h => i23 (i12 h), fun j a h => ?_⟩
  obtain ⟨b, hb, hcb⟩ := c12 j a h
  obtain ⟨c, hc, hcc⟩ := c23 j b hb
  exact ⟨c, hc, fun h' => hcc (hcb h')⟩

theorem graphInv_of_pointwise {g g' : Graph}
    (hlen : g'.athunks.length = g.athunks.length)
    (h : ∀ (j : Nat) (a' : AThunk), g'.athunks[j]? = some a' →
      ∃ a : AThunk, g.athunks[j]? = some a ∧
        a'.sub_computations = a.sub_computations ∧
        a'.super_computations = a.super_computations) :
    GraphInv g → GraphInv g' := by
  rintro ⟨hwf, hsym⟩
  constructor
  · intro i a' ha'
    obtain ⟨a, ha, hsub, hsup⟩ := h i a' ha'
    obtain ⟨h1, h2⟩ := hwf i a ha
    rw [hsub, hsup, hlen]
    exact ⟨h1, h2⟩
  · intro i j a' b' ha' hb'
    obtain ⟨a, ha, hsuba, -⟩ := h i a' ha'
    obtain ⟨b, hb, -, hsupb⟩ := h j b' hb'
    rw [hsuba, hsupb]
    exact hsym i j a b ha hb

/-! Characterization of the edge-teardown loop and the slow-path setup. -/

theorem removeFromSupers_length {locked : List Nat} {sid : Nat} (lst : List Nat) :
    ∀ {g g' : Graph}, removeFromSupers locked sid g lst = some g' →
      g'.athunks.length = g.athunks.length := by
  induction lst with
  | nil =>
    intro g g' h
    unfold removeFromSupers at h
    cases h
    rfl
  | cons s rest IH =>
    intro g g' h
    unfold removeFromSupers at h
    split at h
    next hg => cases h
    next x hg =>
      split at h
      next hl => cases h
      next hl => exact (IH h).trans (modifyNode_length _ _ _)

theorem removeFromSupers_spec {locked : List Nat} {sid : Nat} (lst : List Nat) :
    ∀ {g g' : Graph}, removeFromSupers locked sid g lst = some g' →
      ∀ j : Nat, g'.athunks[j]? = (g.athunks[j]?).map fun a =>
        if j ∈ lst then
          { a with super_computations := removeId sid a.super_computations }
        else a := by
  induction lst with
  | nil =>
    intro g g' h j
    unfold removeFromSupers at h
    cases h
    simp
  | cons s rest IH =>
    intro g g' h j
    unfold removeFromSupers at h
    split at h
    next hg => cases h
    next x hg =>
      split at h
      next hl => cases h
      next hl =>
        rw [IH h j]
        by_cases hjs : j = s
        · subst hjs
          rw [modifyNode_self _ hg, hg]
          by_cases hjr : j ∈ rest
          · simp only [Option.map_some, hjr, if_pos, List.mem_cons,
              Or.inr hjr, if_pos (Or.inr hjr : j = j ∨ j ∈ rest)]
            simp [removeId_idem]
          · simp [hjr, List.mem_cons]
        · rw [modifyNode_ne _ hjs]
          by_cases hjr : j ∈ rest
          · simp [hjr, List.mem_cons]
          · simp [hjr, List.mem_cons, hjs]

/-! The slow-path setup (teardown, clearing the sub-edges, marking clean)
is a well-behaved evaluation step. -/

theorem slowSetup_pres {locked : List Nat} {nid : Nat} {g g1 : Graph}
    {a : AThunk} (ha : g.athunks[nid]? = some a)
    (ht : removeFromSupers locked nid g a.sub_computations = some g1) :
    EvalPres g
      (modifyNode g1 nid fun n =>
        { n with sub_computations := [], clean := true }) := by
  have hlen1 : g1.athunks.length = g.athunks.length :=
    removeFromSupers_length _ ht
  have hspec := removeFromSupers_spec _ ht
  set lst := a.sub_computations with hlst
  set g2 := modifyNode g1 nid fun n =>
    { n with sub_computations := [], clean := true } with hg2def
  have hlen2 : g2.athunks.length = g.athunks.length :=
    (modifyNode_length _ _ _).trans hlen1
  have hg1id : g1.athunks[nid]? = some (if nid ∈ lst then
      { a with super_computations := removeId nid a.super_computations }
      else a) := by
    rw [hspec nid, ha]
    by_cases hidl : nid ∈ lst <;> simp [hidl]
  have hnode : ∀ (x : Nat) (c : AThunk), g2.athunks[x]? = some c →
      ∃ cg : AThunk, g.athunks[x]? = some cg ∧
        c.thunk = cg.thunk ∧
        c.sub_computations = (if x = nid then [] else cg.sub_computations) ∧
        c.super_computations = (if x ∈ lst then
          removeId nid cg.super_computations else cg.super_computations) ∧
        c.clean = (if x = nid then true else cg.clean) := by
    intro x c hc
    by_cases hx : x = nid
    · rw [hg2def, hx, modifyNode_self _ hg1id] at hc
      cases hc
      refine ⟨a, ?_, ?_, ?_, ?_, ?_⟩
      · rw [hx]; exact ha
      · by_cases hidl : nid ∈ lst <;> simp [hidl]
      · rw [if_pos hx]
      · rw [hx]
        by_cases hidl : nid ∈ lst <;> simp [hidl]
      · rw [if_pos hx]
    · rw [hg2def, modifyNode_ne _ hx, hspec x] at hc
      cases hgx : g.athunks[x]? with
      | none => rw [hgx] at hc; cases hc
      | some cx =>
        rw [hgx] at hc
        simp only [Option.map] at hc
        have hceq : c = if x ∈ lst then
            { cx with super_computations := removeId nid cx.super_computations }
            else cx := by
          injection hc with hh
          exact hh.symm
        subst hceq
        refine ⟨cx, rfl, ?_, ?_, ?_, ?_⟩ <;>
          (by_cases hxl : x ∈ lst <;> simp [hxl, hx])
  refine ⟨hlen2, ?_, ?_⟩
  · rintro ⟨hwf, hsym⟩
    constructor
    · intro i c hc
      obtain ⟨cg, hcg, -, hsub, hsup, -⟩ := hnode i c hc
      obtain ⟨hb1, hb2⟩ := hwf i cg hcg
      constructor
      · intro j hj
        rw [hsub] at hj
        by_cases hi : i = nid
        · rw [if_pos hi] at hj
          cases hj
        · rw [if_neg hi] at hj
          rw [hlen2]
          exact hb1 j hj
      · intro j hj
        rw [hsup] at hj
        rw [hlen2]
        by_cases hil : i ∈ lst
        · rw [if_pos hil] at hj
          exact hb2 j (mem_removeId.mp hj).1
        · rw [if_neg hil] at hj
          exact hb2 j hj
    · intro i j c d hc hd
      obtain ⟨cg, hcg, -, hsubc, -, -⟩ := hnode i c hc
      obtain ⟨dg, hdg, -, -, hsupd, -⟩ := hnode j d hd
      rw [hsubc, hsupd]
      by_cases hi : i = nid
      · rw [if_pos hi]
        refine iff_of_false (List.not_mem_nil j) ?_
        by_cases hjl : j ∈ lst
        · rw [if_pos hjl]
          intro hj
          exact (mem_removeId.mp hj).2 hi
        · rw [if_neg hjl]
          intro hj
          rw [hi] at hj
          exact hjl ((hsym nid j a dg ha hdg).mpr hj)
      · rw [if_neg hi]
        have base := hsym i j cg dg hcg hdg
        by_cases hjl : j ∈ lst
        · rw [if_pos hjl]
          constructor
          · intro hj
            exact mem_removeId.mpr ⟨base.mp hj, hi⟩
          · intro hj
            exact base.mpr (mem_removeId.mp hj).1
        · rw [if_neg hjl]
          exact base
  · intro j a0 h0
    obtain ⟨c, hc⟩ := live_of_length hlen2 h0
    obtain ⟨cg, hcg, -, -, -, hclean⟩ := hnode j c hc
    rw [h0] at hcg
    cases hcg
    refine ⟨c, hc, fun hcl => ?_⟩
    rw [hclean]
    by_cases hj : j = nid
    · rw [if_pos hj]
    · rw [if_neg hj]
      exact hcl

/-! Declaring an edge is a well-behaved evaluation step. -/

theorem addEdge_pres {locked : List Nat} {sid sub_id : Nat} {g g' : Graph}
    (hs : sid < g.athunks.length)
    (h : Handle.add_edge locked sid g sub_id = some g') : EvalPres g g' := by
  unfold Handle.add_edge at h
  split at h
  next hg => cases h
  next sb hg =>
    split at h
    next => cases h
    next hl =>
      cases h
      obtain ⟨aself, hselfeq⟩ : ∃ aself : AThunk, g.athunks[sid]? = some aself := by
        cases hq : g.athunks[sid]? with
        | none =>
          have hle := List.getElem?_eq_none_iff.mp hq
          omega
        | some b => exact ⟨b, rfl⟩
      set supFun := fun a : AThunk =>
        { a with super_computations := insertSet sid a.super_computations }
        with hsupFun
      set subFun := fun a : AThunk =>
        { a with sub_computations := insertSet sub_id a.sub_computations }
        with hsubFun
      set gm := modifyNode g sub_id supFun with hgm
      set gx := modifyNode gm sid subFun with hgx
      have hlen : gx.athunks.length = g.athunks.length :=
        (modifyNode_length _ _ _).trans (modifyNode_length _ _ _)
      have hsubLt : sub_id < g.athunks.length :=
        (List.getElem?_eq_some_iff.mp hg).1
      have hnode : ∀ (x : Nat) (c : AThunk), gx.athunks[x]? = some c →
          ∃ cg : AThunk, g.athunks[x]? = some cg ∧
            c.thunk = cg.thunk ∧ c.result = cg.result ∧ c.clean = cg.clean ∧
            c.sub_computations = (if x = sid then
              insertSet sub_id cg.sub_computations else cg.sub_computations) ∧
            c.super_computations = (if x = sub_id then
              insertSet sid cg.super_computations
              else cg.super_computations) := by
        intro x c hc
        by_cases hx1 : x = sid
        · subst hx1
          by_cases hx2 : x = sub_id
          · subst hx2
            rw [hgx, hgm, modifyNode_self subFun (modifyNode_self supFun hg)]
              at hc
            cases hc
            exact ⟨sb, hg, rfl, rfl, rfl, by rw [if_pos rfl],
              by rw [if_pos rfl]⟩
          · rw [hgx, hgm] at hc
            rw [modifyNode_self subFun ((modifyNode_ne supFun hx2).trans
              hselfeq)] at hc
            cases hc
            exact ⟨aself, hselfeq, rfl, rfl, rfl, by rw [if_pos rfl],
              by rw [if_neg hx2]⟩
        · rw [hgx, modifyNode_ne subFun hx1, hgm] at hc
          by_cases hx2 : x = sub_id
          · subst hx2
            rw [modifyNode_self supFun hg] at hc
            cases hc
            exact ⟨sb, hg, rfl, rfl, rfl, by rw [if_neg hx1],
              by rw [if_pos rfl]⟩
          · rw [modifyNode_ne supFun hx2] at hc
            exact ⟨c, hc, rfl, rfl, rfl, by rw [if_neg hx1],
              by rw [if_neg hx2]⟩
      refine ⟨hlen, ?_, ?_⟩
      · rintro ⟨hwf, hsym⟩
        constructor
        · intro i c hc
          obtain ⟨cg, hcg, -, -, -, hsub, hsup⟩ := hnode i c hc
          obtain ⟨hb1, hb2⟩ := hwf i cg hcg
          constructor
          · intro j hj
            rw [hsub] at hj
            rw [hlen]
            by_cases hi : i = sid
            · rw [if_pos hi] at hj
              rcases mem_insertSet.mp hj with hj | hj
              · exact hj ▸ hsubLt
              · exact hb1 j hj
            · rw [if_neg hi] at hj
              exact hb1 j hj
          · intro j hj
            rw [hsup] at hj
            rw [hlen]
            by_cases hi : i = sub_id
            · rw [if_pos hi] at hj
              rcases mem_insertSet.mp hj with hj | hj
              · exact hj ▸ hs
              · exact hb2 j hj
            · rw [if_neg hi] at hj
              exact hb2 j hj
        · intro i j c d hc hd
          obtain ⟨cg, hcg, -, -, -, hsubc, -⟩ := hnode i c hc
          obtain ⟨dg, hdg, -, -, -, -, hsupd⟩ := hnode j d hd
          rw [hsubc, hsupd]
          have base := hsym i j cg dg hcg hdg
          by_cases hi : i = sid
          · rw [if_pos hi]
            by_cases hj : j = sub_id
            · rw [if_pos hj]
              exact iff_of_true (mem_insertSet.mpr (Or.inl hj))
                (mem_insertSet.mpr (Or.inl hi))
            · rw [if_neg hj]
              constructor
              · intro hm
                rcases mem_insertSet.mp hm with hm | hm
                · exact absurd hm hj
                · exact base.mp hm
              · intro hm
                exact mem_insertSet.mpr (Or.inr (base.mpr hm))
          · rw [if_neg hi]
            by_cases hj : j = sub_id
            · rw [if_pos hj]
              constructor
              · intro hm
                exact mem_insertSet.mpr (Or.inr (base.mp hm))
              · intro hm
                rcases mem_insertSet.mp hm with hm | hm
                · exact absurd hm hi
                · exact base.mpr hm
            · rw [if_neg hj]
              exact base
      · intro j a0 h0
        obtain ⟨c, hc⟩ := live_of_length hlen h0
        obtain ⟨cg, hcg, -, -, hclean, -, -⟩ := hnode j c hc
        rw [h0] at hcg
        cases hcg
        exact ⟨c, hc, fun hcl => hclean.trans hcl⟩

/-! Modifying a node without touching its edges or cleanness is a
well-behaved evaluation step (covers the memo-store update). -/

theorem modifyNode_pres {g : Graph} {nid : Nat} {f : AThunk → AThunk}
    (hf : ∀ a : AThunk, (f a).sub_computations = a.sub_computations ∧
      (f a).super_computations = a.super_computations ∧
      (f a).clean = a.clean) :
    EvalPres g (modifyNode g nid f) := by
  refine ⟨modifyNode_length _ _ _, ?_, ?_⟩
  · apply graphInv_of_pointwise (modifyNode_length _ _ _)
    intro j a' ha'
    by_cases hj : j = nid
    · cases hg : g.athunks[nid]? with
      | none =>
        rw [modifyNode_dead _ hg] at ha'
        exact ⟨a', ha', rfl, rfl⟩
      | some b =>
        rw [hj, modifyNode_self _ hg] at ha'
        cases ha'
        exact ⟨b, by rw [hj]; exact hg, (hf b).1, (hf b).2.1⟩
    · rw [modifyNode_ne _ hj] at ha'
      exact ⟨a', ha', rfl, rfl⟩
  · intro j a h
    by_cases hj : j = nid
    · cases hg : g.athunks[nid]? with
      | none =>
        rw [modifyNode_dead _ hg]
        exact ⟨a, h, fun hc => hc⟩
      | some b =>
        have hb : b = a := by
          rw [hj, hg] at h
          injection h
        refine ⟨f a, ?_, fun hc => ?_⟩
        · rw [hj, modifyNode_self _ hg, hb]
        · rw [(hf a).2.2]
          exact hc
    · rw [modifyNode_ne _ hj]
      exact ⟨a, h, fun hc => hc⟩

/-! Running a thunk body preserves the evaluation invariants, provided the
graph-level compute it calls does. -/

theorem evalTWith_pres
    {gcomp : Graph → Nat → List Qv → Option (Option Qv × Graph)}
    (hgc : ∀ {g : Graph} {i : Nat} {as : List Qv} {r : Option Qv × Graph},
      gcomp g i as = some r → EvalPres g r.2)
    {locked : List Nat} {sid : Nat} {args : List Qv} :
    ∀ (e : TExpr) {g g' : Graph} {v : Qv},
      sid < g.athunks.length →
      evalTWith gcomp locked sid args g e = some (v, g') → EvalPres g g' := by
  intro e
  induction e with
  | lit q =>
    intro g g' v hs h
    unfold evalTWith at h
    cases h
    exact evalPres_refl g
  | arg i =>
    intro g g' v hs h
    unfold evalTWith at h
    split at h
    next => cases h
    next w hw =>
      cases h
      exact evalPres_refl g
  | seqEdge sub_id e IH =>
    intro g g' v hs h
    unfold evalTWith at h
    split at h
    next => cases h
    next g1 hadd =>
      have p1 := addEdge_pres hs hadd
      have hs1 : sid < g1.athunks.length := by
        rw [p1.1]
        exact hs
      exact evalPres_trans p1 (IH hs1 h)
  | computeU i as =>
    intro g g' v hs h
    unfold evalTWith at h
    split at h
    next => cases h
    next hr => cases h
    next v1 g1 hr =>
      cases h
      exact hgc hr
  | add e1 e2 IH1 IH2 =>
    intro g g' v hs h
    unfold evalTWith at h
    split at h
    next => cases h
    next v1 g1 h1 =>
      split at h
      next => cases h
      next v2 g2 h2 =>
        cases h
        have p1 := IH1 hs h1
        have hs1 : sid < g1.athunks.length := by
          rw [p1.1]
          exact hs
        exact evalPres_trans p1 (IH2 hs1 h2)
  | sub e1 e2 IH1 IH2 =>
    intro g g' v hs h
    unfold evalTWith at h
    split at h
    next => cases h
    next v1 g1 h1 =>
      split at h
      next => cases h
      next v2 g2 h2 =>
        cases h
        have p1 := IH1 hs h1
        have hs1 : sid < g1.athunks.length := by
          rw [p1.1]
          exact hs
        exact evalPres_trans p1 (IH2 hs1 h2)
  | div e1 e2 IH1 IH2 =>
    intro g g' v hs h
    unfold evalTWith at h
    split at h
    next => cases h
    next v1 g1 h1 =>
      split at h
      next => cases h
      next v2 g2 h2 =>
        cases h
        have p1 := IH1 hs h1
        have hs1 : sid < g1.athunks.length := by
          rw [p1.1]
          exact hs
        exact evalPres_trans p1 (IH2 hs1 h2)

/-! Every successful node evaluation preserves the evaluation invariants. -/

theorem athunkCompute_pres : ∀ (f : Nat) {locked : List Nat} {g : Graph}
    {nid : Nat} {args : List Qv} {v : Qv} {g' : Graph},
    AThunk.compute f locked g nid args = some (v, g') → EvalPres g g' := by
  intro f
  induction f with
  | zero =>
    intro locked g nid args v g' h
    simp [AThunk.compute] at h
  | succ f IH =>
    intro locked g nid args v g' h
    simp only [AThunk.compute] at h
    split at h
    next => cases h
    next a ha =>
      split at h
      next r hmemo =>
        cases h
        exact evalPres_refl g
      next hmemo =>
        split at h
        next => cases h
        next g1 htd =>
          split at h
          next => cases h
          next v3 g3 heval =>
            have hgcL : ∀ {g0 : Graph} {i : Nat} {as : List Qv}
                {r : Option Qv × Graph},
                (match g0.athunks[i]? with
                  | none => some (none, g0)
                  | some _ =>
                    if i ∈ locked then none
                    else (AThunk.compute f (i :: locked) g0 i as).map
                      fun p => (some p.1, p.2)) = some r →
                EvalPres g0 r.2 := by
              intro g0 i as r hr
              split at hr
              next =>
                cases hr
                exact evalPres_refl g0
              next b hgi =>
                split at hr
                next => cases hr
                next hil =>
                  cases hac : AThunk.compute f (i :: locked) g0 i as with
                  | none =>
                    rw [hac] at hr
                    simp at hr
                  | some p =>
                    obtain ⟨pv, pg⟩ := p
                    rw [hac] at hr
                    simp only [Option.map] at hr
                    cases hr
                    exact IH hac
            have p1 : EvalPres g (modifyNode g1 nid fun n =>
                { n with sub_computations := [], clean := true }) :=
              slowSetup_pres ha htd
            have hs2 : nid < (modifyNode g1 nid fun n =>
                { n with sub_computations := [], clean := true }).athunks.length := by
              rw [p1.1]
              exact (List.getElem?_eq_some_iff.mp ha).1
            have p2 := evalTWith_pres hgcL a.thunk hs2 heval
            have p3 : EvalPres g3 (modifyNode g3 nid fun n =>
                { n with result := insertMemo (mkKey args) v3 n.result }) :=
              modifyNode_pres fun a0 => ⟨rfl, rfl, rfl⟩
            have p4 := IH h
            exact evalPres_trans p1 (evalPres_trans p2 (evalPres_trans p3 p4))

/-! Every successful public evaluation preserves the invariants. -/

theorem graphCompute_pres {fuel : Nat} {locked : List Nat} {g : Graph}
    {nid : Nat} {args : List Qv} {r : Option Qv × Graph}
    (h : Graph.compute fuel locked g nid args = some r) : EvalPres g r.2 := by
  unfold Graph.compute at h
  split at h
  next =>
    cases h
    exact evalPres_refl g
  next b hgi =>
    split at h
    next => cases h
    next hil =>
      cases hac : AThunk.compute fuel (nid :: locked) g nid args with
      | none =>
        rw [hac] at h
        simp at h
      | some p =>
        obtain ⟨pv, pg⟩ := p
        rw [hac] at h
        simp only [Option.map] at h
        cases h
        exact athunkCompute_pres fuel hac

/-! Lemmas about the dirtying pass. -/

theorem dirtyPres_refl (g : Graph) : DirtyPres g g :=
  ⟨rfl, fun _ a h => ⟨a, h, rfl, rfl, rfl, Or.inl ⟨rfl, rfl⟩⟩⟩

theorem dirtyPres_trans {g1 g2 g3 : Graph} (h12 : DirtyPres g1 g2)
    (h23 : DirtyPres g2 g3) : DirtyPres g1 g3 := by
  obtain ⟨l12, p12⟩ := h12
  obtain ⟨l23, p23⟩ := h23
  refine ⟨l23.trans l12, fun j a h => ?_⟩
  obtain ⟨b, hb, tb, sb, pb, cb⟩ := p12 j a h
  obtain ⟨c, hc, tc, sc, pc, cc⟩ := p23 j b hb
  refine ⟨c, hc, tc.trans tb, sc.trans sb, pc.trans pb, ?_⟩
  rcases cc with ⟨c1, c2⟩ | ⟨c1, c2⟩
  · rcases cb with ⟨b1, b2⟩ | ⟨b1, b2⟩
    · exact Or.inl ⟨c1.trans b1, c2.trans b2⟩
    · exact Or.inr ⟨c1.trans b1, c2.trans b2⟩
  · exact Or.inr ⟨c1, c2⟩

theorem flip_dirtyPres (g : Graph) (nid : Nat) :
    DirtyPres g
      (modifyNode g nid fun n => { n with clean := false, result := [] }) := by
  refine ⟨modifyNode_length _ _ _, fun j a h => ?_⟩
  by_cases hj : j = nid
  · cases hg : g.athunks[nid]? with
    | none =>
      rw [modifyNode_dead _ hg]
      exact ⟨a, h, rfl, rfl, rfl, Or.inl ⟨rfl, rfl⟩⟩
    | some b =>
      have hb : b = a := by
        rw [hj, hg] at h
        injection h
      subst hb
      refine ⟨{ b with clean := false, result := [] }, ?_, rfl, rfl, rfl,
        Or.inr ⟨rfl, rfl⟩⟩
      rw [hj, modifyNode_self _ hg]
  · rw [modifyNode_ne _ hj]
    exact ⟨a, h, rfl, rfl, rfl, Or.inl ⟨rfl, rfl⟩⟩

theorem foldDirty_pres {dg : Graph → Nat → Option Graph}
    (hdg : ∀ {g : Graph} {s : Nat} {g' : Graph}, dg g s = some g' →
      DirtyPres g g') :
    ∀ (lst : List Nat) {g g' : Graph}, foldDirty dg g lst = some g' →
      DirtyPres g g' := by
  intro lst
  induction lst with
  | nil =>
    intro g g' h
    unfold foldDirty at h
    cases h
    exact dirtyPres_refl g
  | cons s rest IH =>
    intro g g' h
    unfold foldDirty at h
    split at h
    next => cases h
    next g1 h1 => exact dirtyPres_trans (hdg h1) (IH h)

theorem dirtyGo_pres : ∀ (f : Nat) {locked : List Nat} {g : Graph}
    {nid : Nat} {g' : Graph}, Graph.dirtyGo f locked g nid = some g' →
    DirtyPres g g' := by
  intro f
  induction f with
  | zero =>
    intro locked g nid g' h
    simp [Graph.dirtyGo] at h
  | succ f IH =>
    intro locked g nid g' h
    simp only [Graph.dirtyGo] at h
    split at h
    next => cases h
    next a ha =>
      split at h
      next => cases h
      next hl =>
        split at h
        next hcl =>
          exact dirtyPres_trans (flip_dirtyPres g nid)
            (foldDirty_pres (fun hh => IH hh) _ h)
        next hcl =>
          cases h
          exact dirtyPres_refl g

theorem dirtyGo_sets_dirty : ∀ (f : Nat) {locked : List Nat} {g : Graph}
    {s : Nat} {g' : Graph}, Graph.dirtyGo f locked g s = some g' →
    ∃ b : AThunk, g'.athunks[s]? = some b ∧ b.clean = false := by
  intro f
  induction f with
  | zero =>
    intro locked g s g' h
    simp [Graph.dirtyGo] at h
  | succ f IH =>
    intro locked g s g' h
    simp only [Graph.dirtyGo] at h
    split at h
    next => cases h
    next a ha =>
      split at h
      next => cases h
      next hl =>
        split at h
        next hcl =>
          have hm := modifyNode_self
            (fun n : AThunk => { n with clean := false, result := [] }) ha
          have hp := foldDirty_pres (fun hh => dirtyGo_pres f hh) _ h
          obtain ⟨c, hc, -, -, -, hcc⟩ := hp.2 s _ hm
          refine ⟨c, hc, ?_⟩
          rcases hcc with ⟨c1, -⟩ | ⟨c1, -⟩
          · rw [c1]
          · exact c1
        next hcl =>
          cases h
          refine ⟨a, ha, ?_⟩
          cases hcv : a.clean with
          | false => rfl
          | true => exact absurd hcv hcl

/-! The clean-node count: the measure that bounds dirtying recursion. -/

theorem countP_clean_le : ∀ (l : List AThunk) {l' : List AThunk},
    l'.length = l.length →
    (∀ (j : Nat) (a' : AThunk), l'[j]? = some a' →
      ∃ a : AThunk, l[j]? = some a ∧ (a'.clean = true → a.clean = true)) →
    l'.countP (fun a => a.clean) ≤ l.countP (fun a => a.clean) := by
  intro l
  induction l with
  | nil =>
    intro l' hlen hpt
    rw [List.length_nil, List.length_eq_zero] at hlen
    subst hlen
    exact Nat.le_refl _
  | cons a t IH =>
    intro l' hlen hpt
    cases l' with
    | nil => simp
    | cons b u =>
      simp only [List.length_cons, Nat.succ.injEq] at hlen
      have hhead := hpt 0 b (by rw [List.getElem?_cons_zero])
      obtain ⟨a0, ha0, hc0⟩ := hhead
      rw [List.getElem?_cons_zero] at ha0
      have ha0e : a0 = a := by injection ha0 with hh; exact hh.symm
      subst ha0e
      have htail : u.countP (fun x => x.clean) ≤ t.countP (fun x => x.clean) := by
        apply IH hlen
        intro j a' ha'
        have := hpt (j + 1) a' (by rw [List.getElem?_cons_succ]; exact ha')
        rw [List.getElem?_cons_succ] at this
        exact this
      rw [List.countP_cons, List.countP_cons]
      apply Nat.add_le_add htail
      by_cases hb : b.clean = true
      · rw [hb] at hc0 ⊢
        rw [hc0 rfl]
      · have : b.clean = false := by
          cases hcv : b.clean with
          | false => rfl
          | true => exact absurd hcv hb
        rw [this]
        simp
  
theorem cleanCount_le_of_dirtyPres {g g' : Graph} (h : DirtyPres g g') :
    g'.cleanCount ≤ g.cleanCount := by
  obtain ⟨hlen, hpt⟩ := h
  apply countP_clean_le _ hlen
  intro j a' ha'
  obtain ⟨a, ha⟩ := live_of_length hlen.symm ha'
  obtain ⟨b, hb, -, -, -, hcb⟩ := hpt j a ha
  rw [ha'] at hb
  cases hb
  refine ⟨a, ha, fun hc => ?_⟩
  rcases hcb with ⟨c1, -⟩ | ⟨c1, -⟩
  · rw [← c1]
    exact hc
  · rw [c1] at hc
    cases hc

theorem countP_set_lt : ∀ (l : List AThunk) (i : Nat) {a b : AThunk},
    l[i]? = some a → a.clean = true → b.clean = false →
    (l.set i b).countP (fun x => x.clean) < l.countP (fun x => x.clean) := by
  intro l
  induction l with
  | nil =>
    intro i a b h _ _
    rw [List.getElem?_nil] at h
    cases h
  | cons hd t IH =>
    intro i a b h hac hbc
    cases i with
    | zero =>
      rw [List.getElem?_cons_zero] at h
      have he : hd = a := by injection h
      rw [List.set_cons_zero, List.countP_cons, List.countP_cons, he, hac, hbc]
      simp
    | succ i =>
      rw [List.getElem?_cons_succ] at h
      rw [List.set_cons_succ, List.countP_cons, List.countP_cons]
      exact Nat.add_lt_add_right (IH i h hac hbc) _

theorem cleanCount_flip_lt {g : Graph} {nid : Nat} {a : AThunk}
    (ha : g.athunks[nid]? = some a) (hcl : a.clean = true) :
    (modifyNode g nid fun n =>
      { n with clean := false, result := [] }).cleanCount < g.cleanCount := by
  unfold modifyNode Graph.cleanCount
  rw [ha]
  exact countP_set_lt _ nid ha hcl rfl

/-! Fuel-insensitivity of the dirtying pass: any fuel above the clean-node
count computes the same result, which is what makes `Graph.dirty` (at fuel
`cleanCount + 1`) the function the recursion defines. -/

theorem foldDirty_fuel_eq (f0 f1 : Nat) (lk : List Nat)
    (hstep : ∀ {g : Graph} {s : Nat}, g.cleanCount < f0 → g.cleanCount < f1 →
      Graph.dirtyGo f0 lk g s = Graph.dirtyGo f1 lk g s) :
    ∀ (lst : List Nat) {g : Graph}, g.cleanCount < f0 → g.cleanCount < f1 →
      foldDirty (fun g1 s => Graph.dirtyGo f0 lk g1 s) g lst =
      foldDirty (fun g1 s => Graph.dirtyGo f1 lk g1 s) g lst := by
  intro lst
  induction lst with
  | nil =>
    intro g h0 h1
    rfl
  | cons s rest IH =>
    intro g h0 h1
    unfold foldDirty
    rw [← hstep h0 h1]
    cases hd : Graph.dirtyGo f0 lk g s with
    | none => rfl
    | some g1 =>
      have hle : g1.cleanCount ≤ g.cleanCount :=
        cleanCount_le_of_dirtyPres (dirtyGo_pres f0 hd)
      exact IH (Nat.lt_of_le_of_lt hle h0) (Nat.lt_of_le_of_lt hle h1)

theorem dirtyGo_fuel_eq : ∀ (f0 : Nat) {f1 : Nat} {locked : List Nat}
    {g : Graph} {nid : Nat}, g.cleanCount < f0 → g.cleanCount < f1 →
    Graph.dirtyGo f0 locked g nid = Graph.dirtyGo f1 locked g nid := by
  intro f0
  induction f0 using Nat.strong_induction_on with
  | _ f0 IH =>
    intro f1 locked g nid h0 h1
    cases f0 with
    | zero => omega
    | succ f0 =>
      cases f1 with
      | zero => omega
      | succ f1 =>
        simp only [Graph.dirtyGo]
        cases ha : g.athunks[nid]? with
        | none => simp only [ha]
        | some a =>
          simp only [ha]
          by_cases hl : nid ∈ locked
          · simp only [if_pos hl]
          · simp only [if_neg hl]
            by_cases hcl : a.clean = true
            · rw [if_pos hcl, if_pos hcl]
              apply foldDirty_fuel_eq f0 f1 (nid :: locked)
                (fun hh0 hh1 => IH f0 (Nat.lt_succ_self f0) hh0 hh1)
              · exact Nat.lt_of_lt_of_le (cleanCount_flip_lt ha hcl)
                  (Nat.lt_succ_iff.mp h0)
              · exact Nat.lt_of_lt_of_le (cleanCount_flip_lt ha hcl)
                  (Nat.lt_succ_iff.mp h1)
            · rw [if_neg hcl, if_neg hcl]

theorem foldDirty_all_dirty {f : Nat} {lk : List Nat} :
    ∀ (lst : List Nat) {g g' : Graph},
      foldDirty (fun g1 s => Graph.dirtyGo f lk g1 s) g lst = some g' →
      ∀ s ∈ lst, ∃ b : AThunk, g'.athunks[s]? = some b ∧ b.clean = false := by
  intro lst
  induction lst with
  | nil =>
    intro g g' h s hs
    cases hs
  | cons s0 rest IH =>
    intro g g' h s hs
    unfold foldDirty at h
    split at h
    next => cases h
    next g1 h1 =>
      rcases List.mem_cons.mp hs with rfl | hsr
      · obtain ⟨b, hb, hbc⟩ := dirtyGo_sets_dirty f h1
        have hp := foldDirty_pres (fun hh => dirtyGo_pres f hh) rest h
        obtain ⟨c, hc, -, -, -, hcc⟩ := hp.2 s b hb
        refine ⟨c, hc, ?_⟩
        rcases hcc with ⟨c1, -⟩ | ⟨c1, -⟩
        · rw [c1, hbc]
        · exact c1
      · exact IH h s hsr

/-! The edge invariant holds in every reachable graph state. -/

theorem graphInv_new : GraphInv Graph.new := by
  constructor
  · intro i a h
    simp [Graph.new] at h
  · intro i j a b ha hb
    simp [Graph.new] at ha

theorem graphInv_new_athunk {g : Graph} (h : GraphInv g) (t : TExpr) :
    GraphInv (g.new_athunk t).1 := by
  obtain ⟨hwf, hsym⟩ := h
  have hlen : (g.new_athunk t).1.athunks.length = g.athunks.length + 1 := by
    simp [Graph.new_athunk]
  have hget : ∀ (j : Nat) (c : AThunk),
      (g.new_athunk t).1.athunks[j]? = some c →
      (g.athunks[j]? = some c ∨
        (j = g.athunks.length ∧ c = AThunk.new t)) := by
    intro j c hc
    simp only [Graph.new_athunk] at hc
    by_cases hj : j < g.athunks.length
    · rw [List.getElem?_append_left hj] at hc
      exact Or.inl hc
    · by_cases hj2 : j = g.athunks.length
      · subst hj2
        rw [List.getElem?_concat_length] at hc
        cases hc
        exact Or.inr ⟨rfl, rfl⟩
      · rw [List.getElem?_append_right (Nat.le_of_not_lt hj)] at hc
        rw [List.getElem?_eq_none (by simp; omega)] at hc
        cases hc
  constructor
  · intro i c hc
    rcases hget i c hc with hci | ⟨hi, hcn⟩
    · obtain ⟨h1, h2⟩ := hwf i c hci
      rw [hlen]
      exact ⟨fun j hj => Nat.lt_succ_of_lt (h1 j hj),
        fun j hj => Nat.lt_succ_of_lt (h2 j hj)⟩
    · rw [hcn]
      simp [AThunk.new]
  · intro i j c d hc hd
    rcases hget i c hc with hci | ⟨hi, hcn⟩
    · rcases hget j d hd with hdj | ⟨hj, hdn⟩
      · exact hsym i j c d hci hdj
      · rw [hdn]
        refine iff_of_false ?_ (by simp [AThunk.new])
        intro hmem
        have := (hwf i c hci).1 j hmem
        omega
    · rcases hget j d hd with hdj | ⟨hj, hdn⟩
      · rw [hcn]
        refine iff_of_false (by simp [AThunk.new]) ?_
        intro hmem
        have := (hwf j d hdj).2 i hmem
        omega
      · rw [hcn, hdn]
        simp [AThunk.new]

theorem graphInv_update {g g' : Graph} {nid : Nat} {v : Qv}
    (h : Graph.update_aref g nid v = some g') (hinv : GraphInv g) :
    GraphInv g' := by
  unfold Graph.update_aref at h
  split at h
  next => cases h
  next a ha =>
    have p1 : GraphInv (modifyNode g nid fun a =>
        { a with thunk := .lit v }) :=
      (@modifyNode_pres g nid (fun a => { a with thunk := .lit v })
        (fun a0 => ⟨rfl, rfl, rfl⟩)).2.1 hinv
    unfold Graph.dirty at h
    have p2 := dirtyGo_pres _ h
    apply graphInv_of_pointwise p2.1 ?_ p1
    intro j a' ha'
    obtain ⟨b, hb⟩ := live_of_length p2.1.symm ha'
    obtain ⟨c, hc, -, hsub, hsup, -⟩ := p2.2 j b hb
    rw [ha'] at hc
    cases hc
    exact ⟨b, hb, hsub, hsup⟩

theorem reachable_inv : ∀ {g : Graph}, Reachable g → GraphInv g := by
  intro g h
  induction h with
  | init => exact graphInv_new
  | new_athunk t _ IH => exact graphInv_new_athunk IH t
  | compute fuel nid args _ hc IH => exact (graphCompute_pres hc).2.1 IH
  | update_aref nid v _ hu IH => exact graphInv_update hu IH

/-! The handle-level compute closure preserves the evaluation invariants. -/

theorem gcLambda_pres (f : Nat) (locked : List Nat) :
    ∀ {g0 : Graph} {i : Nat} {as : List Qv} {r : Option Qv × Graph},
      (match g0.athunks[i]? with
        | none => some (none, g0)
        | some _ =>
          if i ∈ locked then none
          else (AThunk.compute f (i :: locked) g0 i as).map
            fun p => (some p.1, p.2)) = some r →
      EvalPres g0 r.2 := by
  intro g0 i as r hr
  split at hr
  next =>
    cases hr
    exact evalPres_refl g0
  next b hgi =>
    split at hr
    next => cases hr
    next hil =>
      cases hac : AThunk.compute f (i :: locked) g0 i as with
      | none =>
        rw [hac] at hr
        simp at hr
      | some p =>
        obtain ⟨pv, pg⟩ := p
        rw [hac] at hr
        simp only [Option.map] at hr
        cases hr
        exact athunkCompute_pres f hac

/-! After a slow-path evaluation stores its freshly computed value in the
memo, the node is clean and the memo holds the key, so the re-entrant tail
call is served by the fast path and returns exactly the stored value. -/

theorem tail_call_memo_hit {f : Nat} {locked : List Nat} {g g1 g3 : Graph}
    {nid : Nat} {args : List Qv} {a : AThunk} {v : Qv}
    (ha : g.athunks[nid]? = some a)
    (htd : removeFromSupers locked nid g a.sub_computations = some g1)
    (heval : evalTWith
      (fun g0 i as =>
        match g0.athunks[i]? with
        | none => some (none, g0)
        | some _ =>
          if i ∈ locked then none
          else (AThunk.compute f (i :: locked) g0 i as).map
            fun p => (some p.1, p.2))
      locked nid args
      (modifyNode g1 nid fun n =>
        { n with sub_computations := [], clean := true }) a.thunk
      = some (v, g3)) :
    ∀ f2 : Nat, AThunk.compute (f2+1) locked
      (modifyNode g3 nid fun n =>
        { n with result := insertMemo (mkKey args) v n.result }) nid args
      = some (v, modifyNode g3 nid fun n =>
        { n with result := insertMemo (mkKey args) v n.result }) := by
  obtain ⟨a1, ha1⟩ : ∃ a1 : AThunk, g1.athunks[nid]? = some a1 :=
    live_of_length (removeFromSupers_length _ htd) ha
  have hg2 := modifyNode_self
    (fun n : AThunk => { n with sub_computations := [], clean := true }) ha1
  have hs2 : nid < (modifyNode g1 nid fun n =>
      { n with sub_computations := [], clean := true }).athunks.length := by
    rw [modifyNode_length, removeFromSupers_length _ htd]
    exact (List.getElem?_eq_some_iff.mp ha).1
  have p2 := evalTWith_pres (gcLambda_pres f locked) a.thunk hs2 heval
  obtain ⟨a3, ha3, hcl3⟩ := p2.2.2 nid _ hg2
  have hcl3t : a3.clean = true := hcl3 rfl
  have hg4 := modifyNode_self
    (fun n : AThunk => { n with result := insertMemo (mkKey args) v n.result })
    ha3
  intro f2
  simp only [AThunk.compute]
  rw [hg4]
  simp [hcl3t, lookupMemo_insertMemo]

/-! One step of `AThunk.compute` versus the direct-return variant. -/

theorem compute_imp_computeDirect {f : Nat} {locked : List Nat} {g : Graph}
    {nid : Nat} {args : List Qv} {r : Qv × Graph}
    (h : AThunk.compute (f+1) locked g nid args = some r) :
    AThunk.computeDirect (f+1) locked g nid args = some r := by
  simp only [AThunk.compute] at h
  simp only [AThunk.computeDirect]
  split at h
  next => cases h
  next a ha =>
    split at h
    next r0 hmemo =>
      cases h
      rfl
    next hmemo =>
      split at h
      next => cases h
      next g1 htd =>
        split at h
        next => cases h
        next v3 g3 heval =>
          cases f with
          | zero => simp [AThunk.compute] at h
          | succ f2 =>
            rw [tail_call_memo_hit ha htd heval f2] at h
            cases h
            rfl

theorem computeDirect_imp_compute {f : Nat} {locked : List Nat} {g : Graph}
    {nid : Nat} {args : List Qv} {r : Qv × Graph}
    (h : AThunk.computeDirect (f+1) locked g nid args = some r)
    (hf : 1 ≤ f) :
    AThunk.compute (f+1) locked g nid args = some r := by
  simp only [AThunk.computeDirect] at h
  simp only [AThunk.compute]
  split at h
  next => cases h
  next a ha =>
    split at h
    next r0 hmemo =>
      cases h
      rfl
    next hmemo =>
      split at h
      next => cases h
      next g1 htd =>
        split at h
        next => cases h
        next v3 g3 heval =>
          cases h
          cases f with
          | zero => omega
          | succ f2 => exact tail_call_memo_hit ha htd heval f2

/-- Helper: the cache-key cast depends only on the truncation of its
argument. -/
theorem asU64_congr {a b : Qv} (h : Qv.trunc a = Qv.trunc b) :
    Qv.asU64 a = Qv.asU64 b := by
  unfold Qv.asU64
  rw [h]

/-- Claim C1: end-to-end scenario with exact values: with leaves `r1 = 8`,
`r2 = 10`, `r3 = 2` and derived nodes `a1 = r2 - r1`, `a2 = r3 + r1`,
`a3 = (r2 + a1 + a2) / args[0]`, compute(a2, []) returns 10,
compute(a3, [1.0]) returns 22, compute(a3, [2.0]) returns 11, repeating
either call returns the same value; after update_aref(r2, 6.0):
compute(a2, []) still returns 10, compute(a3, [1.0]) returns 14 and
compute(a3, [2.0]) returns 7. -/
theorem end_to_end_scenario :
    runVal testGraph 4 [] = some (some 10) ∧
    runVal tg1 5 [1] = some (some 22) ∧
    runVal tg2 5 [2] = some (some 11) ∧
    runVal tg3 5 [1] = some (some 22) ∧
    runVal tg4 5 [2] = some (some 11) ∧
    (Graph.update_aref tg5 1 6).isSome = true ∧
    runVal tg6 4 [] = some (some 10) ∧
    runVal tg7 5 [1] = some (some 14) ∧
    runVal tg8 5 [2] = some (some 7) := by decide

/-- Claim C2: for every live node id and value v, update_aref(id, v)
replaces the node's computation unit with one that returns v
unconditionally, then invalidates starting at id itself regardless of its
clean/dirty state; afterwards id is dirty, and update_aref itself
evaluates no computation (every other node keeps its thunk and edges, its
memo is at most discarded, and no dirty node becomes clean). -/
theorem update_aref_replaces_and_dirties (g : Graph) (nid : Nat) (v : Qv)
    (a : AThunk) (g' : Graph) (ha : g.athunks[nid]? = some a)
    (hu : Graph.update_aref g nid v = some g') :
    Graph.update_aref g nid v =
      Graph.dirty (modifyNode g nid fun n => { n with thunk := .lit v })
        nid ∧
    (g'.athunks[nid]?.map fun b => b.thunk) = some (.lit v) ∧
    (∀ (gcomp : Graph → Nat → List Qv → Option (Option Qv × Graph))
      (locked : List Nat) (sid : Nat) (as : List Qv) (h0 : Graph),
      evalTWith gcomp locked sid as h0 (.lit v) = some (v, h0)) ∧
    (g'.athunks[nid]?.map fun b => b.clean) = some false ∧
    (∀ (j : Nat) (b : AThunk), g.athunks[j]? = some b → j ≠ nid →
      ∃ b' : AThunk, g'.athunks[j]? = some b' ∧ b'.thunk = b.thunk ∧
        b'.sub_computations = b.sub_computations ∧
        b'.super_computations = b.super_computations ∧
        (b'.result = b.result ∨ b'.result = []) ∧
        (b.clean = false → b'.clean = false)) := by
  have hu2 : Graph.dirty
      (modifyNode g nid fun n => { n with thunk := .lit v }) nid =
      some g' := by
    unfold Graph.update_aref at hu
    split at hu
    next hnone => rw [ha] at hnone; cases hnone
    next a2 ha2 => exact hu
  unfold Graph.dirty at hu2
  have dp := dirtyGo_pres _ hu2
  refine ⟨?_, ?_, ?_, ?_, ?_⟩
  · unfold Graph.update_aref
    split
    next hnone => rw [ha] at hnone; cases hnone
    next a2 ha2 => rfl
  · obtain ⟨b', hb', ht', -, -, -⟩ := dp.2 nid _ (modifyNode_self
      (fun n : AThunk => { n with thunk := .lit v }) ha)
    rw [hb']
    simp only [Option.map]
    rw [ht']
  · intro gcomp locked sid as h0
    rfl
  · obtain ⟨b, hb, hbc⟩ := dirtyGo_sets_dirty _ hu2
    rw [hb]
    simp only [Option.map]
    rw [hbc]
  · intro j b hb hne
    have hmj : (modifyNode g nid fun n =>
        { n with thunk := .lit v }).athunks[j]? = some b := by
      rw [modifyNode_ne _ hne]
      exact hb
    obtain ⟨b', hb', ht', hs', hp', hcr⟩ := dp.2 j b hmj
    refine ⟨b', hb', ht', hs', hp', ?_, ?_⟩
    · rcases hcr with ⟨-, c2⟩ | ⟨-, c2⟩
      · exact Or.inl c2
      · exact Or.inr c2
    · intro hbd
      rcases hcr with ⟨c1, -⟩ | ⟨c1, -⟩
      · rw [c1, hbd]
      · exact c1

/-- Witness for claim C2 at a concrete graph: one leaf node updated to 5:
its thunk becomes the constant 5 and it ends dirty. -/
theorem update_aref_replaces_and_dirties_witness :
    ((⟨[⟨.lit 5, [], false, [], []⟩]⟩ :
        Graph).athunks[0]?.map fun b => b.thunk) = some (.lit 5) ∧
    ((⟨[⟨.lit 5, [], false, [], []⟩]⟩ :
        Graph).athunks[0]?.map fun b => b.clean) = some false :=
  have h := update_aref_replaces_and_dirties (Graph.new.new_aref 3).1 0 5
    ⟨.lit 3, [], false, [], []⟩
    ⟨[⟨.lit 5, [], false, [], []⟩]⟩
    (by decide) (by decide)
  ⟨h.2.1, h.2.2.2.1⟩

/-- Claim C3: the invalidation `dirty` is a total terminating function on
every (finite) graph: any fuel above the clean-node count computes the
same result (the recursion only descends into nodes it flips from clean to
dirty, so it terminates even on diamond-shaped graphs); an already-dirty
node stops the recursion with the graph unchanged; a clean node is marked
dirty, its whole memo table is discarded, and every node in its
`super_computations` set is recursively invalidated (each ends dirty). -/
theorem dirty_total_terminating (g : Graph) (nid : Nat) :
    (∀ f : Nat, g.cleanCount < f →
      Graph.dirtyGo f [] g nid = Graph.dirty g nid) ∧
    (∀ a : AThunk, g.athunks[nid]? = some a → a.clean = false →
      Graph.dirty g nid = some g) ∧
    (∀ (a : AThunk) (g' : Graph), g.athunks[nid]? = some a →
      a.clean = true → Graph.dirty g nid = some g' →
      (g'.athunks[nid]?.map fun b => (b.clean, b.result)) =
        some (false, []) ∧
      ∀ s ∈ a.super_computations,
        (g'.athunks[s]?.map fun b => b.clean) = some false) := by
  refine ⟨?_, ?_, ?_⟩
  · intro f hf
    unfold Graph.dirty
    exact dirtyGo_fuel_eq f hf (Nat.lt_succ_self _)
  · intro a ha hcl
    unfold Graph.dirty
    simp [Graph.dirtyGo, ha, hcl]
  · intro a g' ha hcl hd
    unfold Graph.dirty at hd
    have hd2 : foldDirty
        (fun g1 s => Graph.dirtyGo g.cleanCount [nid] g1 s)
        (modifyNode g nid fun n => { n with clean := false, result := [] })
        a.super_computations = some g' := by
      simp only [Graph.dirtyGo, ha, hcl] at hd
      simpa using hd
    constructor
    · have hm := modifyNode_self
        (fun n : AThunk => { n with clean := false, result := [] }) ha
      have hp := foldDirty_pres
        (fun hh => dirtyGo_pres g.cleanCount hh) _ hd2
      obtain ⟨c, hc, -, -, -, hcc⟩ := hp.2 nid _ hm
      rw [hc]
      simp only [Option.map]
      rcases hcc with ⟨c1, c2⟩ | ⟨c1, c2⟩
      · rw [c1, c2]
      · rw [c1, c2]
    · intro s hs
      obtain ⟨b, hb, hbc⟩ := foldDirty_all_dirty _ hd2 s hs
      rw [hb]
      simp only [Option.map]
      rw [hbc]

/-- Witness for claim C3: dirtying a freshly created (already dirty) leaf
stops at once and leaves the graph unchanged. -/
theorem dirty_total_terminating_witness :
    Graph.dirty (Graph.new.new_aref 3).1 0 = some (Graph.new.new_aref 3).1 :=
  (dirty_total_terminating (Graph.new.new_aref 3).1 0).2.1
    { thunk := .lit 3, result := [], clean := false,
      sub_computations := [], super_computations := [] }
    (by decide) (by decide)

/-- Claim C4: fast path: a public compute on a clean node whose memo holds
the key of `args` returns the memoized value immediately and leaves the
entire graph state unchanged (so a repeated call executes no computation
at all). -/
theorem compute_fast_path (g : Graph) (fuel nid : Nat) (args : List Qv)
    (a : AThunk) (r : Qv) (hf : 0 < fuel) (ha : g.athunks[nid]? = some a)
    (hcl : a.clean = true) (hm : lookupMemo (mkKey args) a.result = some r) :
    Graph.compute fuel [] g nid args = some (some r, g) := by
  obtain ⟨f, rfl⟩ : ∃ f, fuel = f + 1 := ⟨fuel - 1, by omega⟩
  unfold Graph.compute
  simp [AThunk.compute, ha, hcl, hm]

/-- Witness for claim C4: recomputing a computed leaf is served from its
memo with the graph unchanged. -/
theorem compute_fast_path_witness :
    Graph.compute 40 [] (runG (Graph.new.new_aref 3).1 0 []) 0 [] =
      some (some 3, runG (Graph.new.new_aref 3).1 0 []) :=
  compute_fast_path (runG (Graph.new.new_aref 3).1 0 []) 40 0 []
    { thunk := .lit 3, result := [([], 3)], clean := true,
      sub_computations := [], super_computations := [] } 3
    (by decide) (by decide) (by decide) (by decide)

/-- Claim C5: edge symmetry: in every graph state reachable through the
public operations, B is in A's `sub_computations` exactly when A is in B's
`super_computations` (within one evaluation edges are torn down and
rebuilt, but every completed operation restores the symmetry). -/
theorem edge_symmetry_reachable {g : Graph} (h : Reachable g) : EdgeSym g :=
  (reachable_inv h).2

/-- Witness for claim C5 at a concrete reachable graph. -/
theorem edge_symmetry_reachable_witness :
    EdgeSym (Graph.new.new_aref 5).1 :=
  edge_symmetry_reachable (Reachable.new_athunk (.lit 5) Reachable.init)

/-- Claim C6: the trailing recursive self-call in node evaluation is a
behavioral no-op: with fuel left for the re-check, `AThunk.compute` agrees
exactly with the variant that returns the freshly stored value directly,
because nothing can re-dirty the node between storing and returning. -/
theorem compute_tail_selfcall_noop (f : Nat) (locked : List Nat)
    (g : Graph) (nid : Nat) (args : List Qv) :
    AThunk.compute (f+2) locked g nid args =
      AThunk.computeDirect (f+2) locked g nid args := by
  cases hc : AThunk.compute (f+2) locked g nid args with
  | some r => exact (compute_imp_computeDirect hc).symm
  | none =>
    cases hd : AThunk.computeDirect (f+2) locked g nid args with
    | none => rfl
    | some r =>
      have h2 := computeDirect_imp_compute hd (by omega)
      rw [h2] at hc
      cases hc

/-- Claim C7: the cache key is built by truncating each argument to an
integer, so argument vectors of equal length whose entries have equal
truncations collide to one key; concretely, compute(id, [1.4]) and
compute(id, [1.9]) on a node returning args[0] collide: the second call
reads the memo entry written by the first and returns 1.4. -/
theorem cache_key_truncation :
    (∀ (as bs : List Qv), as.length = bs.length →
      (∀ p ∈ as.zip bs, Qv.trunc p.1 = Qv.trunc p.2) →
      mkKey as = mkKey bs) ∧
    mkKey [⟨7, 5⟩] = mkKey [⟨19, 10⟩] ∧
    runVal argGraph 0 [⟨7, 5⟩] = some (some ⟨7, 5⟩) ∧
    runVal (runG argGraph 0 [⟨7, 5⟩]) 0 [⟨19, 10⟩] = some (some ⟨7, 5⟩) := by
  refine ⟨?_, by decide, by decide, by decide⟩
  intro as
  induction as with
  | nil =>
    intro bs hlen hpt
    symm at hlen
    rw [List.length_nil, List.length_eq_zero] at hlen
    subst hlen
    rfl
  | cons a t IH =>
    intro bs hlen hpt
    cases bs with
    | nil => cases hlen
    | cons b u =>
      have hab : Qv.trunc a = Qv.trunc b := by
        apply hpt (a, b)
        rw [List.zip_cons_cons]
        exact List.mem_cons_self _ _
      have ht : mkKey t = mkKey u := by
        apply IH u (by simpa using hlen)
        intro p hp
        apply hpt p
        rw [List.zip_cons_cons]
        exact List.mem_cons_of_mem _ hp
      unfold mkKey at ht ⊢
      simp only [List.map]
      rw [asU64_congr hab, ht]

/-- Witness for claim C7: two two-entry argument vectors with equal
truncations produce the same cache key. -/
theorem cache_key_truncation_witness :
    mkKey [⟨7, 5⟩, ⟨-1, 2⟩] = mkKey [⟨19, 10⟩, ⟨-9, 10⟩] :=
  cache_key_truncation.1 [⟨7, 5⟩, ⟨-1, 2⟩] [⟨19, 10⟩, ⟨-9, 10⟩] rfl
    (by decide)

/-- Claim C8 (amended): compute on an id that is not live returns absent
with the graph unchanged, and whenever compute on a live id returns at all
its value is present; but a live id is not guaranteed a returned value:
a self-referential node makes the evaluation abort on the re-entrant
borrow (for every fuel), as the counterexample shows. -/
theorem compute_absent_iff_dead :
    (∀ (g : Graph) (fuel nid : Nat) (args : List Qv),
      g.athunks[nid]? = none →
      Graph.compute fuel [] g nid args = some (none, g)) ∧
    (∀ (g : Graph) (fuel nid : Nat) (args : List Qv)
      (p : Option Qv × Graph), (g.athunks[nid]?).isSome →
      Graph.compute fuel [] g nid args = some p → p.1.isSome) ∧
    (∀ fuel : Nat, Graph.compute fuel [] cycGraph 0 [] = none) := by
  refine ⟨?_, ?_, ?_⟩
  · intro g fuel nid args h
    unfold Graph.compute
    simp [h]
  · intro g fuel nid args p hs hc
    unfold Graph.compute at hc
    split at hc
    next hnone =>
      rw [hnone] at hs
      cases hs
    next b hb =>
      split at hc
      next => cases hc
      next =>
        cases hac : AThunk.compute fuel (nid :: []) g nid args with
        | none =>
          rw [hac] at hc
          simp at hc
        | some q =>
          rw [hac] at hc
          simp only [Option.map] at hc
          cases hc
          rfl
  · intro fuel
    cases fuel with
    | zero => rfl
    | succ f => rfl

/-- Counterexample to claim C8 as frozen: node 0 of `cycGraph` is live,
yet compute returns no value at all (the run aborts on the re-entrant
`RefCell` borrow caused by the self-dependency). -/
theorem compute_live_yet_aborts :
    (cycGraph.athunks[0]?).isSome = true ∧
    Graph.compute 40 [] cycGraph 0 [] = none := by decide

/-- Witness for claim C8 (amended) at a concrete input: the empty graph
has no node 0, so compute returns absent. -/
theorem compute_absent_iff_dead_witness :
    Graph.compute 40 [] Graph.new 0 [] = some (none, Graph.new) :=
  compute_absent_iff_dead.1 Graph.new 40 0 [] (by decide)

/-- Claim C9: the cache-key cast `f as u64` saturates: NaN maps to 0,
every negative argument maps to 0, and every argument above `u64::MAX`
maps to `u64::MAX`; concretely compute(id, [-1.5]) and compute(id, [0.5])
collide to one cache key and share one memo entry (the second call returns
the first call's value -1.5). -/
theorem cast_saturation :
    F64val.asU64 .nan = 0 ∧
    (∀ q : Qv, q.num < 0 → Qv.asU64 q = 0) ∧
    (∀ q : Qv, 0 < q.den → ((2 ^ 64 - 1) * (q.den : Int) < q.num) →
      Qv.asU64 q = 2 ^ 64 - 1) ∧
    mkKey [⟨-3, 2⟩] = mkKey [⟨1, 2⟩] ∧
    runVal argGraph 0 [⟨-3, 2⟩] = some (some ⟨-3, 2⟩) ∧
    runVal (runG argGraph 0 [⟨-3, 2⟩]) 0 [⟨1, 2⟩] = some (some ⟨-3, 2⟩) := by
  refine ⟨rfl, ?_, ?_, by decide, by decide, by decide⟩
  · intro q hq
    unfold Qv.asU64 Qv.trunc
    rw [if_pos hq]
    generalize q.num.natAbs / q.den = k
    omega
  · intro q hden hq
    have hnum : 0 ≤ q.num := by
      have h0 : (0 : Int) ≤ (2 ^ 64 - 1) * (q.den : Int) := by positivity
      omega
    unfold Qv.asU64 Qv.trunc
    rw [if_neg (not_lt.mpr hnum)]
    apply Nat.min_eq_right
    have hk : (2 ^ 64 - 1) * q.den ≤ q.num.natAbs := by omega
    calc 2 ^ 64 - 1 ≤ q.num.natAbs / q.den := by
          rw [Nat.le_div_iff_mul_le hden]
          exact hk
      _ ≤ (((q.num.natAbs / q.den : Nat) : Int)).toNat := by omega

/-- Witness for claim C9: a negative argument casts to 0 and an argument
above `u64::MAX` casts to `u64::MAX`. -/
theorem cast_saturation_witness :
    Qv.asU64 ⟨-3, 2⟩ = 0 ∧ Qv.asU64 ⟨2 ^ 64 * 3, 2⟩ = 2 ^ 64 - 1 :=
  ⟨cast_saturation.2.1 ⟨-3, 2⟩ (by decide),
   cast_saturation.2.2.1 ⟨2 ^ 64 * 3, 2⟩ (by decide) (by decide)⟩

/-- Claim C10: update_aref requires a live id: on a dead id it aborts
(returns none) instead of signalling absence, while on a live id its
unwrap is unreachable and it reduces to the thunk replacement followed by
dirtying; the same liveness precondition holds for the dependency id of
`Handle.add_edge` (dead id: abort; live unborrowed id: success) and for
`Graph.dirty` at its root. -/
theorem unwrap_preconditions :
    (∀ (g : Graph) (nid : Nat) (v : Qv), g.athunks[nid]? = none →
      Graph.update_aref g nid v = none) ∧
    (∀ (g : Graph) (nid : Nat) (v : Qv) (a : AThunk),
      g.athunks[nid]? = some a →
      Graph.update_aref g nid v =
        Graph.dirty (modifyNode g nid fun n => { n with thunk := .lit v })
          nid) ∧
    (∀ (locked : List Nat) (sid : Nat) (g : Graph) (sub_id : Nat),
      g.athunks[sub_id]? = none →
      Handle.add_edge locked sid g sub_id = none) ∧
    (∀ (locked : List Nat) (sid : Nat) (g : Graph) (sub_id : Nat)
      (a : AThunk), g.athunks[sub_id]? = some a → sub_id ∉ locked →
      (Handle.add_edge locked sid g sub_id).isSome = true) ∧
    (∀ (g : Graph) (nid : Nat), g.athunks[nid]? = none →
      Graph.dirty g nid = none) := by
  refine ⟨?_, ?_, ?_, ?_, ?_⟩
  · intro g nid v h
    unfold Graph.update_aref
    simp [h]
  · intro g nid v a h
    unfold Graph.update_aref
    simp [h]
  · intro locked sid g sub_id h
    unfold Handle.add_edge
    simp [h]
  · intro locked sid g sub_id a h hnl
    unfold Handle.add_edge
    simp [h, hnl]
  · intro g nid h
    unfold Graph.dirty
    simp [Graph.dirtyGo, h]

/-- Witness for claim C10: on the empty graph both update_aref and dirty
at id 0 abort. -/
theorem unwrap_preconditions_witness :
    Graph.update_aref Graph.new 0 5 = none ∧
    Graph.dirty Graph.new 0 = none :=
  ⟨unwrap_preconditions.1 Graph.new 0 5 (by decide),
   unwrap_preconditions.2.2.2.2 Graph.new 0 (by decide)⟩
